import Mathlib

/-!
Verification of the centered interval tree of `IntervalTree.hpp`
(`IntervalTree<T,R>` / `IntervalTreeNode<T,R>`), shallowly embedded in Lean.

The C++ classes are templates over an interval type `T` and an ordinal
index type `R` with accessors `getStart`/`getEnd`.  We instantiate them the
way the repository's own test harness does (`TestInterval`, with integer
coordinates): `T` becomes the structure `TestInterval` below and `R`
becomes `Int`.  Machine arithmetic in the scope exercised here never
overflows, so `Int` is a faithful model of the index type.

`std::sort` with the `IntervalComparator` functor is modelled by a concrete
comparison-sort (`sortByKey`, an insertion sort): any implementation of
`std::sort` produces some permutation of the input ordered by the key, and
none of the facts proved below about whole-tree behaviour depend on how the
sort breaks ties.
-/

/-- The interval type stored in the tree, as instantiated by the
repository's test harness (`TestInterval` with `getStartTest`/`getEndTest`
accessors).  `getStart` and `getEnd` are the two accessor functions
`R (*getStart)(const T&)` / `R (*getEnd)(const T&)`. -/
structure TestInterval where
  getStart : Int
  getEnd : Int
deriving DecidableEq

/-- The two exception messages thrown by the `IntervalTree` constructor:
"Interval tree constructor got empty set of intervals" (`emptyInput`) and
"fatal error: picked mid point ... failed to intersect anything"
(`invariantViolation`).  Both are raised as the single C++ type
`IntervalTreeError`; the constructor distinguishes them only by message,
which the two cases of this inductive record. -/
inductive IntervalTreeError where
  | emptyInput
  | invariantViolation
deriving DecidableEq

/-- Stable insertion of `x` into `l`, ordered by `key`.  Together with
`sortByKey` this is the model of `std::sort(v.begin(), v.end(),
IntervalComparator(key))`: a permutation of the input that is
non-decreasing in `key`. -/
def orderedInsert (key : TestInterval → Int) (x : TestInterval) :
    List TestInterval → List TestInterval
  | [] => [x]
  | y :: ys => if key x ≤ key y then x :: y :: ys else y :: orderedInsert key x ys

/-- Model of `std::sort` keyed by `key` (see `orderedInsert`). -/
def sortByKey (key : TestInterval → Int) : List TestInterval → List TestInterval
  | [] => []
  | x :: xs => orderedInsert key x (sortByKey key xs)

/-- The node type `IntervalTreeNode<T,R>`: the node's intervals sorted by
start (`starts`), the same intervals sorted by end (`ends`), and the
centerpoint `mid`.  The C++ member `mid` is declared `double`; the value
stored in it is always the result of the integer expression
`(getEnd(midInt) - getStart(midInt))/2 + getStart(midInt)`, which is exact
in `double` for the integer ranges exercised, so it is modelled as `Int`. -/
structure IntervalTreeNode where
  starts : List TestInterval
  ends : List TestInterval
  mid : Int
deriving DecidableEq

/-- The `IntervalTreeNode` constructor: copy the interval list twice and
sort one copy by start, the other by end. -/
def mkNode (intervals : List TestInterval) (mid : Int) : IntervalTreeNode :=
  { starts := sortByKey TestInterval.getStart intervals
    ends := sortByKey TestInterval.getEnd intervals
    mid := mid }

/-- The tree type `IntervalTree<T,R>`: a node `data` plus optional `left`
and `right` subtrees (`NULL` pointers become `none`).  Query methods
dereference `data` unconditionally, which is safe exactly for trees
produced by the constructor, where `data` is always set; the embedding
therefore makes `data` a mandatory field. -/
inductive IntervalTree where
  | node (data : IntervalTreeNode) (left : Option IntervalTree)
      (right : Option IntervalTree)

/-- The `data` member (never `NULL` on constructed trees). -/
def IntervalTree.data : IntervalTree → IntervalTreeNode
  | .node d _ _ => d

/-- The `left` child pointer. -/
def IntervalTree.left : IntervalTree → Option IntervalTree
  | .node _ l _ => l

/-- The `right` child pointer. -/
def IntervalTree.right : IntervalTree → Option IntervalTree
  | .node _ _ r => r

/-- The `lt` partition of the constructor loop: intervals with
`getEnd(*it) < mid`, kept in traversal order (`push_back`). -/
def ltPart (mid : Int) (l : List TestInterval) : List TestInterval :=
  l.filter fun i => decide (i.getEnd < mid)

/-- The `rt` partition: intervals that fail the `lt` test and have
`getStart(*it) > mid`. -/
def rtPart (mid : Int) (l : List TestInterval) : List TestInterval :=
  l.filter fun i => !decide (i.getEnd < mid) && decide (i.getStart > mid)

/-- The `here` partition: everything that goes to neither `lt` nor `rt`. -/
def herePart (mid : Int) (l : List TestInterval) : List TestInterval :=
  l.filter fun i => !decide (i.getEnd < mid) && !decide (i.getStart > mid)

theorem sortByKey_perm (key : TestInterval → Int) (l : List TestInterval) :
    (sortByKey key l).Perm l := by
  induction l with
  | nil => simp [sortByKey]
  | cons x xs ih =>
    have hins : ∀ (ys : List TestInterval), (orderedInsert key x ys).Perm (x :: ys) := by
      intro ys
      induction ys with
      | nil => simp [orderedInsert]
      | cons y ys ihy =>
        simp only [orderedInsert]
        split
        · exact List.Perm.refl _
        · exact (List.Perm.cons y ihy).trans (List.Perm.swap x y ys)
    exact ((hins (sortByKey key xs)).trans (ih.cons x))

theorem sortByKey_length (key : TestInterval → Int) (l : List TestInterval) :
    (sortByKey key l).length = l.length :=
  (sortByKey_perm key l).length_eq

theorem part_length (mid : Int) (l : List TestInterval) :
    (ltPart mid l).length + (rtPart mid l).length + (herePart mid l).length
      = l.length := by
  induction l with
  | nil => simp [ltPart, rtPart, herePart]
  | cons x xs ih =>
    by_cases he : x.getEnd < mid
    · simp [ltPart, rtPart, herePart, List.filter, he] at ih ⊢; omega
    · by_cases hs : x.getStart > mid
      · simp [ltPart, rtPart, herePart, List.filter, he, hs] at ih ⊢; omega
      · simp [ltPart, rtPart, herePart, List.filter, he, hs] at ih ⊢; omega

theorem ltPart_length_lt (m : Int) (cl : List TestInterval) {n : Nat}
    (hn : cl.length = n) (h1 : ¬(herePart m cl).length ≤ 0) :
    (ltPart m cl).length < n := by
  have := part_length m cl; omega

theorem rtPart_length_lt (m : Int) (cl : List TestInterval) {n : Nat}
    (hn : cl.length = n) (h1 : ¬(herePart m cl).length ≤ 0) :
    (rtPart m cl).length < n := by
  have := part_length m cl; omega

theorem part_perm (mid : Int) (l : List TestInterval) :
    (herePart mid l ++ (ltPart mid l ++ rtPart mid l)).Perm l := by
  induction l with
  | nil => simp [ltPart, rtPart, herePart]
  | cons x xs ih =>
    by_cases he : x.getEnd < mid
    · have h1 : herePart mid (x :: xs) = herePart mid xs := by
        simp [herePart, List.filter, he]
      have h2 : ltPart mid (x :: xs) = x :: ltPart mid xs := by
        simp [ltPart, List.filter, he]
      have h3 : rtPart mid (x :: xs) = rtPart mid xs := by
        simp [rtPart, List.filter, he]
      rw [h1, h2, h3]
      exact (List.perm_middle).trans (ih.cons x)
    · by_cases hs : x.getStart > mid
      · have h1 : herePart mid (x :: xs) = herePart mid xs := by
          simp [herePart, List.filter, he, hs]
        have h2 : ltPart mid (x :: xs) = ltPart mid xs := by
          simp [ltPart, List.filter, he]
        have h3 : rtPart mid (x :: xs) = x :: rtPart mid xs := by
          simp [rtPart, List.filter, he, hs]
        rw [h1, h2, h3]
        have hstep :
            herePart mid xs ++ (ltPart mid xs ++ x :: rtPart mid xs)
              = (herePart mid xs ++ ltPart mid xs) ++ x :: rtPart mid xs := by
          simp [List.append_assoc]
        rw [hstep]
        refine List.Perm.trans List.perm_middle ?_
        refine List.Perm.cons x ?_
        rw [List.append_assoc]
        exact ih
      · have h1 : herePart mid (x :: xs) = x :: herePart mid xs := by
          simp [herePart, List.filter, he, hs]
        have h2 : ltPart mid (x :: xs) = ltPart mid xs := by
          simp [ltPart, List.filter, he]
        have h3 : rtPart mid (x :: xs) = rtPart mid xs := by
          simp [rtPart, List.filter, he, hs]
        rw [h1, h2, h3]
        exact ih.cons x

/-- The `IntervalTree` constructor.  Mirrors the C++ control flow: reject an
empty input (`emptyInput`); sort a working copy by start; take the interval
at index `size/2` as the pivot and set
`mid = (getEnd(pivot) - getStart(pivot))/2 + getStart(pivot)`; partition
into `lt` / `rt` / `here`; reject an empty `here` (`invariantViolation`);
recursively build the left subtree from `lt` if non-empty, then the right
subtree from `rt` if non-empty; finally build the node from `here`.
Thrown exceptions propagate, which `Except` bind models. -/
def buildTree (intervals : List TestInterval) : Except IntervalTreeError IntervalTree :=
  if h0 : intervals.length ≤ 0 then .error .emptyInput
  else
    let cIntervals := sortByKey TestInterval.getStart intervals
    let midInt := cIntervals.get ⟨intervals.length / 2, by
      rw [sortByKey_length]; omega⟩
    let mid := (midInt.getEnd - midInt.getStart) / 2 + midInt.getStart
    let lt := ltPart mid cIntervals
    let rt := rtPart mid cIntervals
    let here := herePart mid cIntervals
    if h1 : here.length ≤ 0 then .error .invariantViolation
    else
      have hlt : lt.length < intervals.length :=
        ltPart_length_lt _ _ (sortByKey_length _ _) h1
      have hrt : rt.length < intervals.length :=
        rtPart_length_lt _ _ (sortByKey_length _ _) h1
      match (if 0 < lt.length then (buildTree lt).map some else .ok none : Except IntervalTreeError (Option IntervalTree)) with
      | .error e => .error e
      | .ok leftChild =>
        match (if 0 < rt.length then (buildTree rt).map some else .ok none : Except IntervalTreeError (Option IntervalTree)) with
        | .error e => .error e
        | .ok rightChild => .ok (.node (mkNode here mid) leftChild rightChild)
termination_by intervals.length
decreasing_by
  · exact hlt
  · exact hrt

/-- `IntervalTree::intersectingPoint`.  If `point > mid`, walk the `ends`
list from the front, keeping intervals with `getEnd(*it) >= point` and
stopping at the first failure (`break`), then append the recursive result
from the right subtree; symmetrically for `point < mid` with `starts` and
the left subtree; otherwise (`point == mid`, per the assertion) return the
node's full `ends` list. -/
def IntervalTree.intersectingPoint : IntervalTree → Int → List TestInterval
  | .node d left right, point =>
    if point > d.mid then
      d.ends.takeWhile (fun i => decide (i.getEnd ≥ point)) ++
        (match right with
         | none => []
         | some r => r.intersectingPoint point)
    else if point < d.mid then
      d.starts.takeWhile (fun i => decide (i.getStart ≤ point)) ++
        (match left with
         | none => []
         | some l => l.intersectingPoint point)
    else
      d.ends

/-- The four-way overlap test of `IntervalTree::intersectingInterval`,
exactly as written in the source:
`(getStart(*it) >= start && getStart(*it) < end) ||
 (getEnd(*it) > start && getEnd(*it) <= end) ||
 (start >= getStart(*it) && start < getEnd(*it)) ||
 (end > getStart(*it) && end <= getEnd(*it))`. -/
def ivTest (start : Int) (stop : Int) (i : TestInterval) : Bool :=
  (decide (i.getStart ≥ start) && decide (i.getStart < stop)) ||
    (decide (i.getEnd > start) && decide (i.getEnd ≤ stop)) ||
    (decide (start ≥ i.getStart) && decide (start < i.getEnd)) ||
    (decide (stop > i.getStart) && decide (stop ≤ i.getEnd))

/-- `IntervalTree::intersectingInterval`: filter the node's `starts` list
with the four-way test (the loop has no early exit), then append the left
subtree's result when `left != NULL && start <= mid`, then the right
subtree's result when `right != NULL && end >= mid`. -/
def IntervalTree.intersectingInterval :
    IntervalTree → Int → Int → List TestInterval
  | .node d left right, start, stop =>
    d.starts.filter (ivTest start stop) ++
      ((match left with
        | none => []
        | some l =>
          if start ≤ d.mid then l.intersectingInterval start stop else []) ++
        (match right with
         | none => []
         | some r =>
           if stop ≥ d.mid then r.intersectingInterval start stop else []))

/-- `IntervalTree::squash`: the node's `starts` list, then the flattened
left subtree, then the flattened right subtree. -/
def IntervalTree.squash : IntervalTree → List TestInterval
  | .node d left right =>
    d.starts ++
      ((match left with
        | none => []
        | some l => l.squash) ++
        (match right with
         | none => []
         | some r => r.squash))

/-- `IntervalTree::size`: the node's interval count plus the recursive
sizes of the subtrees. -/
def IntervalTree.size : IntervalTree → Nat
  | .node d left right =>
    d.starts.length +
      ((match left with
        | none => 0
        | some l => l.size) +
        (match right with
         | none => 0
         | some r => r.size))

/-- The `IntervalTreeNode` copy constructor: member-wise copy of `starts`,
`ends` and `mid`. -/
def IntervalTreeNode.copy (n : IntervalTreeNode) : IntervalTreeNode :=
  { starts := n.starts, ends := n.ends, mid := n.mid }

/-- The `IntervalTree` copy constructor: deep-copy the node and both
subtrees (`NULL` children stay `NULL`). -/
def IntervalTree.copy : IntervalTree → IntervalTree
  | .node d left right =>
    .node d.copy
      (match left with
       | none => none
       | some l => some l.copy)
      (match right with
       | none => none
       | some r => some r.copy)

/-- `IntervalTree::operator=`: copy-construct a temporary from `other` and
swap it into `*this`; the post-state of `*this` is a deep copy of `other`,
whatever it held before. -/
def IntervalTree.assign (_this other : IntervalTree) : IntervalTree :=
  other.copy

/-- Flattening of an optional subtree: a `NULL` child contributes
nothing. -/
def optSquash : Option IntervalTree → List TestInterval
  | none => []
  | some t => t.squash

/-- The structural invariant of §3 of the design: at every node the
interval lists are non-empty and contain the same multiset; every interval
in the left subtree ends strictly before `mid`; every interval in the
right subtree starts strictly after `mid`; every interval kept at the node
spans `mid` (`start ≤ mid ≤ end`); and the three partitions are pairwise
disjoint.  (That their union is exactly the collection handed to the
node's constructor is the `Perm` fact proved alongside, applied
recursively.) -/
def TreeInv : IntervalTree → Prop
  | .node d left right =>
    d.starts ≠ [] ∧ d.ends ≠ [] ∧ d.ends.Perm d.starts ∧
    (∀ i ∈ optSquash left, i.getEnd < d.mid) ∧
    (∀ i ∈ optSquash right, i.getStart > d.mid) ∧
    (∀ i ∈ d.starts, i.getStart ≤ d.mid ∧ d.mid ≤ i.getEnd) ∧
    (∀ i ∈ optSquash left, i ∉ d.starts) ∧
    (∀ i ∈ optSquash right, i ∉ d.starts) ∧
    (∀ i ∈ optSquash left, i ∉ optSquash right) ∧
    (match left with
     | none => True
     | some lt => TreeInv lt) ∧
    (match right with
     | none => True
     | some rt => TreeInv rt)

theorem buildTree_ok_inv {l : List TestInterval} {t : IntervalTree}
    (h : buildTree l = .ok t) :
    ∃ (mid : Int) (lc rc : Option IntervalTree),
      ¬(herePart mid (sortByKey TestInterval.getStart l)).length ≤ 0 ∧
      t = .node (mkNode (herePart mid (sortByKey TestInterval.getStart l)) mid)
            lc rc ∧
      ((ltPart mid (sortByKey TestInterval.getStart l)).length = 0 ∧ lc = none ∨
        ∃ tl, buildTree (ltPart mid (sortByKey TestInterval.getStart l)) = .ok tl
          ∧ lc = some tl) ∧
      ((rtPart mid (sortByKey TestInterval.getStart l)).length = 0 ∧ rc = none ∨
        ∃ tr, buildTree (rtPart mid (sortByKey TestInterval.getStart l)) = .ok tr
          ∧ rc = some tr) := by
  rw [buildTree] at h
  by_cases h0 : l.length ≤ 0
  · rw [dif_pos h0] at h
    exact absurd h (by simp)
  · rw [dif_neg h0] at h
    simp only [] at h
    set cl := sortByKey TestInterval.getStart l with hcl
    set midInt := cl.get ⟨l.length / 2, by rw [hcl, sortByKey_length]; omega⟩
      with hmidInt
    set mid := (midInt.getEnd - midInt.getStart) / 2 + midInt.getStart with hmid
    by_cases h1 : (herePart mid cl).length ≤ 0
    · rw [dif_pos h1] at h
      exact absurd h (by simp)
    · rw [dif_neg h1] at h
      refine ⟨mid, ?_⟩
      by_cases hc1 : 0 < (ltPart mid cl).length
      · rw [if_pos hc1] at h
        cases hbl : buildTree (ltPart mid cl) with
        | error e =>
          rw [hbl] at h
          simp [Except.map] at h
        | ok tl =>
          rw [hbl] at h
          simp only [Except.map] at h
          by_cases hc2 : 0 < (rtPart mid cl).length
          · rw [if_pos hc2] at h
            cases hbr : buildTree (rtPart mid cl) with
            | error e =>
              rw [hbr] at h
              simp [Except.map] at h
            | ok tr =>
              rw [hbr] at h
              simp only [Except.map, Except.ok.injEq] at h
              exact ⟨some tl, some tr, h1, h.symm, Or.inr ⟨tl, rfl, rfl⟩,
                Or.inr ⟨tr, rfl, rfl⟩⟩
          · rw [if_neg hc2] at h
            simp only [Except.ok.injEq] at h
            exact ⟨some tl, none, h1, h.symm, Or.inr ⟨tl, rfl, rfl⟩,
              Or.inl ⟨by omega, rfl⟩⟩
      · rw [if_neg hc1] at h
        by_cases hc2 : 0 < (rtPart mid cl).length
        · rw [if_pos hc2] at h
          cases hbr : buildTree (rtPart mid cl) with
          | error e =>
            rw [hbr] at h
            simp [Except.map] at h
          | ok tr =>
            rw [hbr] at h
            simp only [Except.map, Except.ok.injEq] at h
            exact ⟨none, some tr, h1, h.symm, Or.inl ⟨by omega, rfl⟩,
              Or.inr ⟨tr, rfl, rfl⟩⟩
        · rw [if_neg hc2] at h
          simp only [Except.ok.injEq] at h
          exact ⟨none, none, h1, h.symm, Or.inl ⟨by omega, rfl⟩,
            Or.inl ⟨by omega, rfl⟩⟩

theorem mem_herePart {mid : Int} {l : List TestInterval} {i : TestInterval}
    (h : i ∈ herePart mid l) : i.getStart ≤ mid ∧ mid ≤ i.getEnd := by
  have := (List.mem_filter.mp h).2
  simp at this
  omega

theorem mem_ltPart {mid : Int} {l : List TestInterval} {i : TestInterval}
    (h : i ∈ ltPart mid l) : i.getEnd < mid := by
  have := (List.mem_filter.mp h).2
  simpa using this

theorem mem_rtPart {mid : Int} {l : List TestInterval} {i : TestInterval}
    (h : i ∈ rtPart mid l) : ¬i.getEnd < mid ∧ i.getStart > mid := by
  have := (List.mem_filter.mp h).2
  simp at this
  omega

def optSize : Option IntervalTree → Nat
  | none => 0
  | some t => t.size

def optInv : Option IntervalTree → Prop
  | none => True
  | some t => TreeInv t

theorem squash_node (d : IntervalTreeNode) (lc rc : Option IntervalTree) :
    (IntervalTree.node d lc rc).squash = d.starts ++ (optSquash lc ++ optSquash rc) := by
  cases lc <;> cases rc <;> simp [IntervalTree.squash, optSquash]

theorem size_node (d : IntervalTreeNode) (lc rc : Option IntervalTree) :
    (IntervalTree.node d lc rc).size = d.starts.length + (optSize lc + optSize rc) := by
  cases lc <;> cases rc <;> simp [IntervalTree.size, optSize]

theorem TreeInv_node (d : IntervalTreeNode) (lc rc : Option IntervalTree) :
    TreeInv (IntervalTree.node d lc rc) ↔
      (d.starts ≠ [] ∧ d.ends ≠ [] ∧ d.ends.Perm d.starts ∧
        (∀ i ∈ optSquash lc, i.getEnd < d.mid) ∧
        (∀ i ∈ optSquash rc, i.getStart > d.mid) ∧
        (∀ i ∈ d.starts, i.getStart ≤ d.mid ∧ d.mid ≤ i.getEnd) ∧
        (∀ i ∈ optSquash lc, i ∉ d.starts) ∧
        (∀ i ∈ optSquash rc, i ∉ d.starts) ∧
        (∀ i ∈ optSquash lc, i ∉ optSquash rc) ∧
        optInv lc ∧ optInv rc) := by
  cases lc <;> cases rc <;> simp [TreeInv, optInv]

theorem buildTree_spec (n : Nat) : ∀ (l : List TestInterval) (t : IntervalTree),
    l.length ≤ n → buildTree l = .ok t →
    t.squash.Perm l ∧ t.size = l.length ∧ TreeInv t := by
  induction n with
  | zero =>
    intro l t hlen h
    have hl : l = [] := List.length_eq_zero.mp (by omega)
    subst hl
    rw [buildTree] at h
    simp at h
  | succ n ih =>
    intro l t hlen h
    obtain ⟨mid, lc, rc, h1, ht, hL, hR⟩ := buildTree_ok_inv h
    subst ht
    have hclperm : (sortByKey TestInterval.getStart l).Perm l := sortByKey_perm _ _
    have hcllen : (sortByKey TestInterval.getStart l).length = l.length :=
      hclperm.length_eq
    have hpl := part_length mid (sortByKey TestInterval.getStart l)
    have hperm3 := part_perm mid (sortByKey TestInterval.getStart l)
    have hLfacts :
        (optSquash lc).Perm (ltPart mid (sortByKey TestInterval.getStart l)) ∧
        optSize lc = (ltPart mid (sortByKey TestInterval.getStart l)).length ∧
        optInv lc := by
      rcases hL with ⟨hlen0, rfl⟩ | ⟨tl, hbl, rfl⟩
      · have hnil : ltPart mid (sortByKey TestInterval.getStart l) = [] :=
          List.length_eq_zero.mp hlen0
        simp [optSquash, optSize, optInv, hnil]
      · have hlt : (ltPart mid (sortByKey TestInterval.getStart l)).length ≤ n := by
          have := ltPart_length_lt mid (sortByKey TestInterval.getStart l) hcllen h1
          omega
        obtain ⟨hsq, hsz, hinv⟩ := ih _ tl hlt hbl
        exact ⟨hsq, hsz, hinv⟩
    have hRfacts :
        (optSquash rc).Perm (rtPart mid (sortByKey TestInterval.getStart l)) ∧
        optSize rc = (rtPart mid (sortByKey TestInterval.getStart l)).length ∧
        optInv rc := by
      rcases hR with ⟨hlen0, rfl⟩ | ⟨tr, hbr, rfl⟩
      · have hnil : rtPart mid (sortByKey TestInterval.getStart l) = [] :=
          List.length_eq_zero.mp hlen0
        simp [optSquash, optSize, optInv, hnil]
      · have hrt : (rtPart mid (sortByKey TestInterval.getStart l)).length ≤ n := by
          have := rtPart_length_lt mid (sortByKey TestInterval.getStart l) hcllen h1
          omega
        obtain ⟨hsq, hsz, hinv⟩ := ih _ tr hrt hbr
        exact ⟨hsq, hsz, hinv⟩
    obtain ⟨hLsq, hLsz, hLinv⟩ := hLfacts
    obtain ⟨hRsq, hRsz, hRinv⟩ := hRfacts
    have hstarts_perm :
        (mkNode (herePart mid (sortByKey TestInterval.getStart l)) mid).starts.Perm
          (herePart mid (sortByKey TestInterval.getStart l)) := by
      simpa [mkNode] using
        sortByKey_perm TestInterval.getStart
          (herePart mid (sortByKey TestInterval.getStart l))
    have hends_perm :
        (mkNode (herePart mid (sortByKey TestInterval.getStart l)) mid).ends.Perm
          (herePart mid (sortByKey TestInterval.getStart l)) := by
      simpa [mkNode] using
        sortByKey_perm TestInterval.getEnd
          (herePart mid (sortByKey TestInterval.getStart l))
    refine ⟨?_, ?_, ?_⟩
    · rw [squash_node]
      refine List.Perm.trans ?_ (hperm3.trans hclperm)
      exact hstarts_perm.append (hLsq.append hRsq)
    · rw [size_node, hstarts_perm.length_eq, hLsz, hRsz]
      omega
    · rw [TreeInv_node]
      have hmid :
          (mkNode (herePart mid (sortByKey TestInterval.getStart l)) mid).mid
            = mid := by simp [mkNode]
      have hmemS : ∀ i,
          i ∈ (mkNode (herePart mid (sortByKey TestInterval.getStart l)) mid).starts
            ↔ i ∈ herePart mid (sortByKey TestInterval.getStart l) :=
        fun i => hstarts_perm.mem_iff
      have hmemL : ∀ i, i ∈ optSquash lc →
          i ∈ ltPart mid (sortByKey TestInterval.getStart l) :=
        fun i hi => hLsq.mem_iff.mp hi
      have hmemR : ∀ i, i ∈ optSquash rc →
          i ∈ rtPart mid (sortByKey TestInterval.getStart l) :=
        fun i hi => hRsq.mem_iff.mp hi
      refine ⟨?_, ?_, hends_perm.trans hstarts_perm.symm, ?_, ?_, ?_, ?_, ?_, ?_,
        hLinv, hRinv⟩
      · intro hnil
        have hlen2 := hstarts_perm.length_eq
        rw [hnil] at hlen2
        simp at hlen2
        omega
      · intro hnil
        have hlen2 := hends_perm.length_eq
        rw [hnil] at hlen2
        simp at hlen2
        omega
      · intro i hi
        rw [hmid]
        exact mem_ltPart (hmemL i hi)
      · intro i hi
        rw [hmid]
        exact (mem_rtPart (hmemR i hi)).2
      · intro i hi
        rw [hmid]
        exact mem_herePart ((hmemS i).mp hi)
      · intro i hi hmem
        have h2 := mem_ltPart (hmemL i hi)
        have h3 := mem_herePart ((hmemS i).mp hmem)
        omega
      · intro i hi hmem
        have h2 := mem_rtPart (hmemR i hi)
        have h3 := mem_herePart ((hmemS i).mp hmem)
        omega
      · intro i hi hmem
        have h2 := mem_ltPart (hmemL i hi)
        have h3 := mem_rtPart (hmemR i hmem)
        omega

theorem buildTree_ok_of_wf (n : Nat) : ∀ (l : List TestInterval),
    l.length ≤ n → 0 < l.length → (∀ i ∈ l, i.getStart ≤ i.getEnd) →
    ∃ t, buildTree l = .ok t := by
  induction n with
  | zero => intro l hlen h0 _; omega
  | succ n ih =>
    intro l hlen h0 hwf
    rw [buildTree]
    rw [dif_neg (by omega)]
    simp only []
    set cl := sortByKey TestInterval.getStart l with hcl
    set midInt := cl.get ⟨l.length / 2, by rw [hcl, sortByKey_length]; omega⟩
      with hmidInt
    set mid := (midInt.getEnd - midInt.getStart) / 2 + midInt.getStart with hmid
    have hcllen : cl.length = l.length := by rw [hcl, sortByKey_length]
    have hclmem : ∀ i, i ∈ cl ↔ i ∈ l := fun i => (sortByKey_perm _ _).mem_iff
    have hmem : midInt ∈ cl := by rw [hmidInt]; exact List.get_mem _ _ _
    have hwfp : midInt.getStart ≤ midInt.getEnd := hwf _ ((hclmem _).mp hmem)
    have hbound : midInt.getStart ≤ mid ∧ mid ≤ midInt.getEnd := by
      rw [hmid]; omega
    have hpivot : midInt ∈ herePart mid cl := by
      rw [herePart, List.mem_filter]
      refine ⟨hmem, ?_⟩
      simp
      omega
    have h1 : ¬(herePart mid cl).length ≤ 0 := by
      have := List.length_pos_of_mem hpivot
      omega
    rw [dif_neg h1]
    have hwfcl : ∀ i ∈ cl, i.getStart ≤ i.getEnd :=
      fun i hi => hwf i ((hclmem _).mp hi)
    by_cases hc1 : 0 < (ltPart mid cl).length
    · obtain ⟨tl, htl⟩ := ih (ltPart mid cl)
        (by have := ltPart_length_lt mid cl hcllen h1; omega) hc1
        (fun i hi => hwfcl i (List.mem_of_mem_filter hi))
      rw [if_pos hc1, htl]
      simp only [Except.map]
      by_cases hc2 : 0 < (rtPart mid cl).length
      · obtain ⟨tr, htr⟩ := ih (rtPart mid cl)
          (by have := rtPart_length_lt mid cl hcllen h1; omega) hc2
          (fun i hi => hwfcl i (List.mem_of_mem_filter hi))
        rw [if_pos hc2, htr]
        simp only [Except.map]
        exact ⟨_, rfl⟩
      · rw [if_neg hc2]
        exact ⟨_, rfl⟩
    · rw [if_neg hc1]
      by_cases hc2 : 0 < (rtPart mid cl).length
      · obtain ⟨tr, htr⟩ := ih (rtPart mid cl)
          (by have := rtPart_length_lt mid cl hcllen h1; omega) hc2
          (fun i hi => hwfcl i (List.mem_of_mem_filter hi))
        rw [if_pos hc2, htr]
        simp only [Except.map]
        exact ⟨_, rfl⟩
      · rw [if_neg hc2]
        exact ⟨_, rfl⟩

theorem buildTree_no_emptyInput (n : Nat) : ∀ (l : List TestInterval),
    l.length ≤ n → l ≠ [] → buildTree l ≠ .error .emptyInput := by
  induction n with
  | zero =>
    intro l hlen hne
    cases l with
    | nil => exact absurd rfl hne
    | cons x xs => simp at hlen
  | succ n ih =>
    intro l hlen hne h
    rw [buildTree] at h
    have h0 : ¬l.length ≤ 0 := by
      cases l with
      | nil => exact absurd rfl hne
      | cons x xs => simp
    rw [dif_neg h0] at h
    simp only [] at h
    set cl := sortByKey TestInterval.getStart l with hcl
    set midInt := cl.get ⟨l.length / 2, by rw [hcl, sortByKey_length]; omega⟩
      with hmidInt
    set mid := (midInt.getEnd - midInt.getStart) / 2 + midInt.getStart with hmid
    have hcllen : cl.length = l.length := by rw [hcl, sortByKey_length]
    by_cases h1 : (herePart mid cl).length ≤ 0
    · rw [dif_pos h1] at h
      simp at h
    · rw [dif_neg h1] at h
      by_cases hc1 : 0 < (ltPart mid cl).length
      · rw [if_pos hc1] at h
        cases hbl : buildTree (ltPart mid cl) with
        | error e =>
          rw [hbl] at h
          simp only [Except.map] at h
          cases h
          exact ih (ltPart mid cl)
            (by have := ltPart_length_lt mid cl hcllen h1; omega)
            (by intro hnil; rw [hnil] at hc1; simp at hc1) hbl
        | ok tl =>
          rw [hbl] at h
          simp only [Except.map] at h
          by_cases hc2 : 0 < (rtPart mid cl).length
          · rw [if_pos hc2] at h
            cases hbr : buildTree (rtPart mid cl) with
            | error e =>
              rw [hbr] at h
              simp only [Except.map] at h
              cases h
              exact ih (rtPart mid cl)
                (by have := rtPart_length_lt mid cl hcllen h1; omega)
                (by intro hnil; rw [hnil] at hc2; simp at hc2) hbr
            | ok tr =>
              rw [hbr] at h
              simp only [Except.map] at h
              cases h
          · rw [if_neg hc2] at h
            cases h
      · rw [if_neg hc1] at h
        by_cases hc2 : 0 < (rtPart mid cl).length
        · rw [if_pos hc2] at h
          cases hbr : buildTree (rtPart mid cl) with
          | error e =>
            rw [hbr] at h
            simp only [Except.map] at h
            cases h
            exact ih (rtPart mid cl)
              (by have := rtPart_length_lt mid cl hcllen h1; omega)
              (by intro hnil; rw [hnil] at hc2; simp at hc2) hbr
          | ok tr =>
            rw [hbr] at h
            simp only [Except.map] at h
            cases h
        · rw [if_neg hc2] at h
          cases h

theorem intersectingInterval_node (d : IntervalTreeNode)
    (lc rc : Option IntervalTree) (qs qe : Int) :
    (IntervalTree.node d lc rc).intersectingInterval qs qe =
      d.starts.filter (ivTest qs qe) ++
        ((match lc with
          | none => []
          | some l => if qs ≤ d.mid then l.intersectingInterval qs qe else []) ++
         (match rc with
          | none => []
          | some r => if qe ≥ d.mid then r.intersectingInterval qs qe else [])) := by
  cases lc <;> cases rc <;> simp [IntervalTree.intersectingInterval]

theorem intersectingInterval_perm (n : Nat) :
    ∀ (l : List TestInterval) (t : IntervalTree) (qs qe : Int),
    l.length ≤ n → (∀ i ∈ l, i.getStart ≤ i.getEnd) →
    buildTree l = .ok t → qs ≤ qe →
    (t.intersectingInterval qs qe).Perm (l.filter (ivTest qs qe)) := by
  induction n with
  | zero =>
    intro l t qs qe hlen hwf h hq
    have hl : l = [] := List.length_eq_zero.mp (by omega)
    subst hl
    rw [buildTree] at h
    simp at h
  | succ n ih =>
    intro l t qs qe hlen hwf h hq
    obtain ⟨mid, lc, rc, h1, ht, hL, hR⟩ := buildTree_ok_inv h
    subst ht
    have hclperm : (sortByKey TestInterval.getStart l).Perm l := sortByKey_perm _ _
    have hcllen : (sortByKey TestInterval.getStart l).length = l.length :=
      hclperm.length_eq
    have hperm3 := part_perm mid (sortByKey TestInterval.getStart l)
    have hwfcl : ∀ i ∈ sortByKey TestInterval.getStart l,
        i.getStart ≤ i.getEnd := fun i hi => hwf i (hclperm.mem_iff.mp hi)
    have hmid :
        (mkNode (herePart mid (sortByKey TestInterval.getStart l)) mid).mid
          = mid := by simp [mkNode]
    have hstarts_perm :
        (mkNode (herePart mid (sortByKey TestInterval.getStart l)) mid).starts.Perm
          (herePart mid (sortByKey TestInterval.getStart l)) := by
      simpa [mkNode] using
        sortByKey_perm TestInterval.getStart
          (herePart mid (sortByKey TestInterval.getStart l))
    have hHere :
        ((mkNode (herePart mid (sortByKey TestInterval.getStart l))
            mid).starts.filter (ivTest qs qe)).Perm
          ((herePart mid (sortByKey TestInterval.getStart l)).filter
            (ivTest qs qe)) :=
      hstarts_perm.filter _
    have hLskip : ¬qs ≤ mid →
        (ltPart mid (sortByKey TestInterval.getStart l)).filter
          (ivTest qs qe) = [] := by
      intro hqm
      rw [List.filter_eq_nil_iff]
      intro i hi
      have he := mem_ltPart hi
      have hw := hwfcl i (List.mem_of_mem_filter hi)
      simp [ivTest]
      omega
    have hRskip : ¬qe ≥ mid →
        (rtPart mid (sortByKey TestInterval.getStart l)).filter
          (ivTest qs qe) = [] := by
      intro hqm
      rw [List.filter_eq_nil_iff]
      intro i hi
      have he := mem_rtPart hi
      have hw := hwfcl i (List.mem_of_mem_filter hi)
      simp [ivTest]
      omega
    have hLih : ∀ tchild, buildTree (ltPart mid (sortByKey TestInterval.getStart l))
          = .ok tchild →
        (tchild.intersectingInterval qs qe).Perm
          ((ltPart mid (sortByKey TestInterval.getStart l)).filter
            (ivTest qs qe)) :=
      fun tchild hb => ih _ tchild qs qe
        (by have := ltPart_length_lt mid (sortByKey TestInterval.getStart l)
              hcllen h1; omega)
        (fun i hi => hwfcl i (List.mem_of_mem_filter hi)) hb hq
    have hRih : ∀ tchild, buildTree (rtPart mid (sortByKey TestInterval.getStart l))
          = .ok tchild →
        (tchild.intersectingInterval qs qe).Perm
          ((rtPart mid (sortByKey TestInterval.getStart l)).filter
            (ivTest qs qe)) :=
      fun tchild hb => ih _ tchild qs qe
        (by have := rtPart_length_lt mid (sortByKey TestInterval.getStart l)
              hcllen h1; omega)
        (fun i hi => hwfcl i (List.mem_of_mem_filter hi)) hb hq
    have hfinal :
        (((herePart mid (sortByKey TestInterval.getStart l)).filter (ivTest qs qe))
            ++ ((ltPart mid (sortByKey TestInterval.getStart l)).filter
                  (ivTest qs qe)
              ++ (rtPart mid (sortByKey TestInterval.getStart l)).filter
                  (ivTest qs qe))).Perm (l.filter (ivTest qs qe)) := by
      have hsplit :
          (herePart mid (sortByKey TestInterval.getStart l)).filter (ivTest qs qe)
              ++ ((ltPart mid (sortByKey TestInterval.getStart l)).filter
                    (ivTest qs qe)
                ++ (rtPart mid (sortByKey TestInterval.getStart l)).filter
                    (ivTest qs qe))
            = ((herePart mid (sortByKey TestInterval.getStart l)
                ++ (ltPart mid (sortByKey TestInterval.getStart l)
                  ++ rtPart mid (sortByKey TestInterval.getStart l))).filter
                (ivTest qs qe)) := by
        simp [List.filter_append]
      rw [hsplit]
      exact (hperm3.filter _).trans (hclperm.filter _)
    rcases hL with ⟨hlen0L, rfl⟩ | ⟨tl, hbl, rfl⟩ <;>
      rcases hR with ⟨hlen0R, rfl⟩ | ⟨tr, hbr, rfl⟩
    · have hnilL : ltPart mid (sortByKey TestInterval.getStart l) = [] :=
        List.length_eq_zero.mp hlen0L
      have hnilR : rtPart mid (sortByKey TestInterval.getStart l) = [] :=
        List.length_eq_zero.mp hlen0R
      rw [intersectingInterval_node, hmid]
      refine List.Perm.trans ?_ hfinal
      refine hHere.append ?_
      simp [hnilL, hnilR]
    · have hnilL : ltPart mid (sortByKey TestInterval.getStart l) = [] :=
        List.length_eq_zero.mp hlen0L
      rw [intersectingInterval_node, hmid]
      refine List.Perm.trans ?_ hfinal
      refine hHere.append ?_
      refine List.Perm.append (by simp [hnilL]) ?_
      by_cases hqm : qe ≥ mid
      · simpa [if_pos hqm] using hRih tr hbr
      · rw [hRskip hqm]
        simp [if_neg hqm]
    · have hnilR : rtPart mid (sortByKey TestInterval.getStart l) = [] :=
        List.length_eq_zero.mp hlen0R
      rw [intersectingInterval_node, hmid]
      refine List.Perm.trans ?_ hfinal
      refine hHere.append ?_
      refine List.Perm.append ?_ (by simp [hnilR])
      by_cases hqm : qs ≤ mid
      · simpa [if_pos hqm] using hLih tl hbl
      · rw [hLskip hqm]
        simp [if_neg hqm]
    · rw [intersectingInterval_node, hmid]
      refine List.Perm.trans ?_ hfinal
      refine hHere.append ?_
      refine List.Perm.append ?_ ?_
      · by_cases hqm : qs ≤ mid
        · simpa [if_pos hqm] using hLih tl hbl
        · rw [hLskip hqm]
          simp [if_neg hqm]
      · by_cases hqm : qe ≥ mid
        · simpa [if_pos hqm] using hRih tr hbr
        · rw [hRskip hqm]
          simp [if_neg hqm]

theorem copy_eq : ∀ (t : IntervalTree), t.copy = t
  | .node d none none => by
    simp [IntervalTree.copy, IntervalTreeNode.copy]
  | .node d (some l) none => by
    have hl := copy_eq l
    simp [IntervalTree.copy, IntervalTreeNode.copy, hl]
  | .node d none (some r) => by
    have hr := copy_eq r
    simp [IntervalTree.copy, IntervalTreeNode.copy, hr]
  | .node d (some l) (some r) => by
    have hl := copy_eq l
    have hr := copy_eq r
    simp [IntervalTree.copy, IntervalTreeNode.copy, hl, hr]

/-- The closed-policy point-containment test as the specification words it:
a point `P` is in interval `i` when `i.start ≤ P ≤ i.end`.  This is the
spec-side definition used to compare the code's behaviour against; it is
not part of the C++ source. -/
def specContainsClosed (p : Int) (i : TestInterval) : Bool :=
  decide (i.getStart ≤ p) && decide (p ≤ i.getEnd)

/-- The closed-policy interval-overlap test as the specification words it
(four-way boundary-overlap with all comparisons inclusive, which is
equivalent to `i.start ≤ E ∧ S ≤ i.end` for well-formed operands).  This is
the spec-side definition used to compare the code's behaviour against; it
is not part of the C++ source. -/
def specOverlapClosed (qs qe : Int) (i : TestInterval) : Bool :=
  decide (i.getStart ≤ qe) && decide (qs ≤ i.getEnd)

theorem buildTree_pair :
    buildTree [⟨0,10⟩, ⟨4,6⟩]
      = .ok (.node ⟨[⟨0,10⟩,⟨4,6⟩], [⟨4,6⟩,⟨0,10⟩], 5⟩ none none) := by
  rw [buildTree]
  norm_num [sortByKey, orderedInsert, ltPart, rtPart, herePart, List.filter,
    mkNode]

theorem buildTree_single :
    buildTree [⟨5,10⟩] = .ok (.node ⟨[⟨5,10⟩], [⟨5,10⟩], 7⟩ none none) := by
  rw [buildTree]
  norm_num [sortByKey, orderedInsert, ltPart, rtPart, herePart, List.filter,
    mkNode]

theorem buildTree_singleton (s e : Int) (h : s ≤ e) :
    buildTree [⟨s,e⟩]
      = .ok (.node ⟨[⟨s,e⟩], [⟨s,e⟩], (e - s) / 2 + s⟩ none none) := by
  have hno1 : ¬((⟨s,e⟩ : TestInterval).getEnd < (e - s) / 2 + s) := by
    simp
    omega
  have hno2 : ¬((⟨s,e⟩ : TestInterval).getStart > (e - s) / 2 + s) := by
    simp
    omega
  rw [buildTree]
  rw [dif_neg (by simp)]
  simp only [sortByKey, orderedInsert, List.length_cons, List.length_nil]
  norm_num [ltPart, rtPart, herePart, List.filter, mkNode, hno1, hno2,
    sortByKey, orderedInsert]

/-- C1: the claim is that `intersectingPoint(P)` returns exactly
`{i ∈ S : start ≤ P ≤ end}`, with the `P > mid` branch scanning the by-end
list "from the largest end downward" so that stopping at the first failure
is justified.  The code, however, iterates `ends` from `begin()` — the
SMALLEST end first (the list is sorted ascending by end) — and `break`s at
the first interval with `end < P`, so every interval sorted after a
too-small end is silently dropped.  On `S = {[0,10],[4,6]}` both intervals
share the single node (mid = 5); at `P = 8` the scan sees `[4,6]` first,
breaks, and returns the empty list, though `[0,10]` contains 8 (second
conjunct: the closed-policy brute force keeps `[0,10]`). -/
theorem c1_point_query_drops_end_sorted_suffix :
    (buildTree [⟨0,10⟩, ⟨4,6⟩]).map (fun t => t.intersectingPoint 8) = .ok []
      ∧ List.filter (specContainsClosed 8) [⟨0,10⟩, ⟨4,6⟩] = [⟨0,10⟩] := by
  constructor
  · rw [buildTree_pair]
    rfl
  · decide

/-- C2 counterexample: the four-way overlap test in the source is not
all-inclusive.  For the tree built from the single interval `[5,5]` and the
query `(5,5)`, the code returns the empty list, while the claimed
all-inclusive brute force (`start ≤ E ∧ S ≤ end`) selects `[5,5]`. -/
theorem c2_counterexample_boundary_touch :
    (buildTree [⟨5,5⟩]).map (fun t => t.intersectingInterval 5 5) = .ok []
      ∧ List.filter (specOverlapClosed 5 5) [⟨5,5⟩] = [⟨5,5⟩] := by
  constructor
  · rw [buildTree_singleton 5 5 (by omega)]
    rfl
  · decide

/-- C2 (amended): for every tree built from a well-formed interval list
and every query `Qs ≤ Qe`, `intersectingInterval(Qs,Qe)` returns exactly
(up to order) the set a brute-force scan of the input selects with the
source's own four-way test `ivTest` — whose comparisons are mixed
strict/inclusive, not all inclusive as the claim stated. -/
theorem c2_tree_query_eq_bruteforce_four_way (l : List TestInterval)
    (t : IntervalTree) (qs qe : Int)
    (hwf : ∀ i ∈ l, i.getStart ≤ i.getEnd)
    (hb : buildTree l = .ok t) (hq : qs ≤ qe) :
    (t.intersectingInterval qs qe).Perm (l.filter (ivTest qs qe)) :=
  intersectingInterval_perm l.length l t qs qe le_rfl hwf hb hq

/-- C2 witness: the amended equivalence evaluated on the concrete tree
built from `{[0,10],[4,6]}` with query `(3,7)`. -/
theorem c2_witness :
    ((IntervalTree.node ⟨[⟨0,10⟩,⟨4,6⟩], [⟨4,6⟩,⟨0,10⟩], 5⟩ none none
      : IntervalTree).intersectingInterval 3 7).Perm
      (List.filter (ivTest 3 7) [⟨0,10⟩, ⟨4,6⟩]) :=
  c2_tree_query_eq_bruteforce_four_way [⟨0,10⟩, ⟨4,6⟩] _ 3 7 (by decide)
    buildTree_pair (by decide)

/-- C3 counterexample: the constructor of `IntervalTree` takes only the
interval collection and the two accessor functions — there is no
`openEnded` parameter anywhere in the source — so no construction mode
exists under which the point query excludes an interval whose end equals
the query point: on the tree built from `[5,10]`, `intersectingPoint(10)`
returns `[5,10]`. -/
theorem c3_counterexample_end_equal_point_included :
    (buildTree [⟨5,10⟩]).map (fun t => t.intersectingPoint 10)
      = .ok [⟨5,10⟩] := by
  rw [buildTree_single]
  rfl

/-- C3 (amended): construction takes no endpoint-inclusion policy flag,
and the single fixed behaviour of the tree is end-inclusive for the point
query: for every well-formed interval `[s,e]`, the tree built from it
reports the interval as intersecting the point `e`. -/
theorem c3_point_query_is_end_inclusive (s e : Int) (h : s ≤ e) :
    (buildTree [⟨s,e⟩]).map
        (fun t => decide ((⟨s,e⟩ : TestInterval) ∈ t.intersectingPoint e))
      = .ok true := by
  rw [buildTree_singleton s e h]
  simp only [Except.map, Except.ok.injEq]
  rw [decide_eq_true_eq]
  by_cases hgt : e > (e - s) / 2 + s
  · simp [IntervalTree.intersectingPoint, if_pos hgt, List.takeWhile]
  · have hlt : ¬e < (e - s) / 2 + s := by omega
    simp [IntervalTree.intersectingPoint, if_neg hgt, if_neg hlt]

/-- C3 witness: the amended end-inclusiveness evaluated at `[5,10]`,
point 10. -/
theorem c3_witness :
    (buildTree [⟨5,10⟩]).map
        (fun t => decide ((⟨5,10⟩ : TestInterval) ∈ t.intersectingPoint 10))
      = .ok true :=
  c3_point_query_is_end_inclusive 5 10 (by omega)

/-- C4: for every list the constructor accepts, `size()` returns the
number of supplied intervals and `squash()` returns a permutation of the
supplied collection.  (Both operations are `const` in the source and the
embedding is purely functional, so the tree is unchanged by construction.)
Success of `buildTree` subsumes the claim's premise that the input is
non-empty. -/
theorem c4_size_and_squash (l : List TestInterval) (t : IntervalTree)
    (hb : buildTree l = .ok t) :
    t.size = l.length ∧ t.squash.Perm l :=
  ⟨(buildTree_spec l.length l t le_rfl hb).2.1,
    (buildTree_spec l.length l t le_rfl hb).1⟩

/-- C4 witness: size and squash evaluated on the tree built from
`{[0,10],[4,6]}`. -/
theorem c4_witness :
    (IntervalTree.node ⟨[⟨0,10⟩,⟨4,6⟩], [⟨4,6⟩,⟨0,10⟩], 5⟩ none none
        : IntervalTree).size = ([⟨0,10⟩, ⟨4,6⟩] : List TestInterval).length
      ∧ (IntervalTree.node ⟨[⟨0,10⟩,⟨4,6⟩], [⟨4,6⟩,⟨0,10⟩], 5⟩ none none
        : IntervalTree).squash.Perm [⟨0,10⟩, ⟨4,6⟩] :=
  c4_size_and_squash [⟨0,10⟩, ⟨4,6⟩] _ buildTree_pair

/-- C5: every tree the constructor produces satisfies the structural
invariant `TreeInv` at every node (non-empty node lists holding the same
multiset, left-subtree intervals end before `mid`, right-subtree intervals
start after `mid`, node intervals span `mid`, and the three partitions are
pairwise disjoint), and its flattening is exactly (a permutation of) the
collection passed to the constructor; applied recursively, each subtree's
flattening is exactly the partition handed to that subtree's
construction. -/
theorem c5_structural_invariant (l : List TestInterval) (t : IntervalTree)
    (hb : buildTree l = .ok t) :
    TreeInv t ∧ t.squash.Perm l :=
  ⟨(buildTree_spec l.length l t le_rfl hb).2.2,
    (buildTree_spec l.length l t le_rfl hb).1⟩

/-- C5 witness: the invariant evaluated on the tree built from `[5,10]`. -/
theorem c5_witness :
    TreeInv (IntervalTree.node ⟨[⟨5,10⟩], [⟨5,10⟩], 7⟩ none none)
      ∧ (IntervalTree.node ⟨[⟨5,10⟩], [⟨5,10⟩], 7⟩ none none
        : IntervalTree).squash.Perm [⟨5,10⟩] :=
  c5_structural_invariant [⟨5,10⟩] _ buildTree_single

/-- C6: under the precondition `getStart(i) ≤ getEnd(i)` for every supplied
interval, the `InvariantViolationError` branch is unreachable: the
centerpoint is drawn from the pivot interval's own span, so the pivot
always lands in `here` and `here` is never empty at any recursion level
(the inductive proof threads the pivot-membership argument through every
level); the empty input instead takes the `EmptyInputError` branch. -/
theorem c6_invariantViolation_unreachable (l : List TestInterval)
    (hwf : ∀ i ∈ l, i.getStart ≤ i.getEnd) :
    buildTree l ≠ .error .invariantViolation := by
  cases l with
  | nil =>
    rw [buildTree]
    simp
  | cons x xs =>
    intro hcontra
    obtain ⟨t, ht⟩ := buildTree_ok_of_wf (x :: xs).length (x :: xs) le_rfl
      (by simp) hwf
    rw [ht] at hcontra
    simp at hcontra

/-- C6 witness: unreachability evaluated at the well-formed input
`[1,3]`. -/
theorem c6_witness :
    buildTree [⟨1,3⟩] ≠ .error .invariantViolation :=
  c6_invariantViolation_unreachable [⟨1,3⟩] (by decide)

/-- C7: constructing from the empty collection raises exactly the
empty-input error and produces no tree; for every non-empty collection
(well-formed or not) that error is never raised, at any recursion level. -/
theorem c7_emptyInput_exactly_on_empty :
    buildTree [] = .error .emptyInput
      ∧ ∀ l : List TestInterval, l ≠ [] →
          buildTree l ≠ .error .emptyInput := by
  constructor
  · rw [buildTree]
    simp
  · exact fun l hne => buildTree_no_emptyInput l.length l le_rfl hne

/-- C7 witness: the non-empty half evaluated at `[2,4]`. -/
theorem c7_witness :
    buildTree [⟨2,4⟩] ≠ .error .emptyInput :=
  c7_emptyInput_exactly_on_empty.2 [⟨2,4⟩] (by simp)

/-- C9: copy construction (`IntervalTree.copy`, a deep member-wise copy)
and copy assignment (`IntervalTree.assign`, copy-and-swap) produce a tree
structurally equal to the source, so `intersectingPoint`,
`intersectingInterval`, `squash` and `size` return identical results on
the copy.  In the value semantics of the embedding the copy shares no
state with the original, which is the counterpart of the C++ tree being
independently destructible. -/
theorem c9_copy_and_assign_preserve_queries (t d : IntervalTree)
    (p qs qe : Int) :
    t.copy = t ∧ IntervalTree.assign d t = t
      ∧ t.copy.intersectingPoint p = t.intersectingPoint p
      ∧ t.copy.intersectingInterval qs qe = t.intersectingInterval qs qe
      ∧ t.copy.squash = t.squash ∧ t.copy.size = t.size := by
  have h := copy_eq t
  exact ⟨h, by simpa [IntervalTree.assign] using h, by rw [h], by rw [h],
    by rw [h], by rw [h]⟩

/-- C10: in `intersectingPoint`, whenever neither `point > mid` nor
`point < mid` holds at the visited node of a successfully constructed
tree, `point` equals the node's `mid` (so the `assert` cannot fire) and
the fall-through branch returns the node's complete `ends` list with no
recursion. -/
theorem c10_fallthrough_point_eq_mid (l : List TestInterval)
    (t : IntervalTree) (p : Int) (hb : buildTree l = .ok t)
    (h1 : ¬p > t.data.mid) (h2 : ¬p < t.data.mid) :
    p = t.data.mid ∧ t.intersectingPoint p = t.data.ends := by
  obtain ⟨d, lc, rc⟩ := t
  simp only [IntervalTree.data] at h1 h2
  constructor
  · show p = d.mid
    omega
  · show (IntervalTree.node d lc rc).intersectingPoint p = d.ends
    rw [IntervalTree.intersectingPoint.eq_def]
    dsimp only []
    rw [if_neg h1, if_neg h2]

/-- C10 witness: the fall-through branch evaluated on the tree built from
`[5,10]` (mid = 7) at point 7. -/
theorem c10_witness :
    (7 : Int) = (IntervalTree.node ⟨[⟨5,10⟩], [⟨5,10⟩], 7⟩ none none
        : IntervalTree).data.mid
      ∧ (IntervalTree.node ⟨[⟨5,10⟩], [⟨5,10⟩], 7⟩ none none
        : IntervalTree).intersectingPoint 7
        = (IntervalTree.node ⟨[⟨5,10⟩], [⟨5,10⟩], 7⟩ none none
        : IntervalTree).data.ends :=
  c10_fallthrough_point_eq_mid [⟨5,10⟩] _ 7 buildTree_single
    (by decide) (by decide)
